import Mathlib

/-!
# codecommit-scan: status line renderer and scan driver

A shallow embedding of `terminal.go` (the single-line / multi-line status
renderer) and `main.go` (the pull request scan) followed by the properties
proved about them.

Conventions of the embedding.

* A Go `string` is a Lean `String`; `+` and `%s` formatting of strings are
  `++`.
* The process-wide variables of `terminal.go` (`DebugMode`, `singleLineMode`)
  and the two output streams live in one `Terminal` record that every
  renderer function takes and returns.  Each stream is the sequence of bytes
  written to it so far, and carries the answer of `isTerminal` for it.
* Both mutexes guard code that runs on one goroutine only; locking is the
  identity on this sequential model.
* The AWS clients are request/response functions.  A pointer field of a
  response is an `Option`; dereferencing `none` is the run-time panic of a nil
  pointer dereference and is recorded as its own outcome.
* A `for ... range` loop is a structural recursion over the list it ranges
  over.
-/

namespace CodecommitScan

/-! ## Library functions used by the program -/

namespace strings

/-- Go `strings.HasPrefix` on character lists. -/
def hasPrefixChars : List Char → List Char → Bool
  | _, [] => true
  | [], _ :: _ => false
  | c :: s, d :: p => c == d && hasPrefixChars s p

/-- Search for `sub` at every offset of the character list, left to right. -/
def containsChars : List Char → List Char → Bool
  | [], sub => hasPrefixChars [] sub
  | c :: s, sub => hasPrefixChars (c :: s) sub || containsChars s sub

/-- Go `strings.Contains(s, substr)`: reports whether `substr` is within `s`. -/
def Contains (s substr : String) : Bool :=
  containsChars s.data substr.data

end strings

/-- An operand of `fmt.Fprint`: either a Go string, or a value of another type
together with its default (`%v`) formatting, such as an `error` with the text
of its `Error()` method. -/
inductive Operand where
  | str (s : String)
  | val (shown : String)
  deriving DecidableEq, Repr

namespace Operand

/-- The text `fmt` prints for one operand. -/
def text : Operand → String
  | str s => s
  | val shown => shown

/-- Whether the operand is of kind string. -/
def isString : Operand → Bool
  | str _ => true
  | val _ => false

end Operand

/-- The loop of `fmt.Fprint` from the second operand on: a space is added
between operands when neither is a string. -/
def sprintRest : Bool → List Operand → String
  | _, [] => ""
  | prevString, arg :: rest =>
    (if !arg.isString && !prevString then " " else "") ++ arg.text
      ++ sprintRest arg.isString rest

/-- The bytes `fmt.Fprint(f, a...)` writes. -/
def Sprint : List Operand → String
  | [] => ""
  | arg :: rest => arg.text ++ sprintRest arg.isString rest

/-! ## terminal.go -/

/-- The two streams the program writes to: `os.Stdout` and `os.Stderr`. -/
inductive File where
  | Stdout
  | Stderr
  deriving DecidableEq, Repr

/-- The renderer state: the package variables `DebugMode` and
`singleLineMode`, and for each stream whether it is a terminal and the bytes
written to it so far. -/
structure Terminal where
  DebugMode : Bool
  singleLineMode : Bool
  stdoutTTY : Bool
  stderrTTY : Bool
  stdout : String
  stderr : String
  deriving DecidableEq, Repr

/-- Go type `OnDisableBehavior int`. -/
abbrev OnDisableBehavior := Int

def OnDisableNewLine : OnDisableBehavior := 1

def OnDisableClearLine : OnDisableBehavior := 2

/-- The control sequence `clearLine` writes: newline, cursor up one line,
erase to end of line (`"\n\033[1A\033[K"` in the source). -/
def eraseSeq : String := "\n\x1b[1A\x1b[K"

def isTerminal (t : Terminal) : File → Bool
  | .Stdout => t.stdoutTTY
  | .Stderr => t.stderrTTY

/-- Append bytes to a stream: `fmt.Fprint(f, s)` for an already formatted
`s`. -/
def write (f : File) (s : String) (t : Terminal) : Terminal :=
  match f with
  | .Stdout => { t with stdout := t.stdout ++ s }
  | .Stderr => { t with stderr := t.stderr ++ s }

def clearLine (f : File) (t : Terminal) : Terminal :=
  if !isTerminal t f then t
  else write f eraseSeq t

def DisableSingleLineMode (behavior : OnDisableBehavior) (t : Terminal) : Terminal :=
  if !t.singleLineMode then t
  else
    let t := { t with singleLineMode := false }
    if behavior = OnDisableClearLine then clearLine .Stderr t
    else if behavior = OnDisableNewLine then write .Stderr "\n" t
    else t

def _println (f : File) (pfx : String) (a : List Operand) (t : Terminal) : Terminal :=
  let t := if t.singleLineMode then clearLine f t else t
  let t := write f pfx t
  let t := write f (Sprint a) t
  if !t.singleLineMode then write f "\n" t else t

def Println (a : List Operand) (t : Terminal) : Terminal :=
  _println .Stdout "" a (DisableSingleLineMode OnDisableClearLine t)

def Infoln (a : List Operand) (t : Terminal) : Terminal :=
  _println .Stderr "[INFO]: " a t

def Debugln (a : List Operand) (t : Terminal) : Terminal :=
  if !t.DebugMode then t
  else _println .Stderr "[DEBUG]: " a (DisableSingleLineMode OnDisableNewLine t)

/-- The renderer part of `Fatalln`; the caller ends the process with status 1
right after it. -/
def Fatalln (a : List Operand) (t : Terminal) : Terminal :=
  _println .Stderr "[FATAL]: " a (DisableSingleLineMode OnDisableNewLine t)

/-- The package `init` function, without its assignment to the colour
library's `NoColor` variable (colouring is a parameter of `main` below). -/
def init (t : Terminal) : Terminal :=
  if !isTerminal t .Stderr then DisableSingleLineMode OnDisableNewLine t
  else t

/-- One call into the renderer, or an assignment to `DebugMode`. -/
inductive Op where
  | DisableSingleLineMode (behavior : OnDisableBehavior)
  | _println (f : File) (pfx : String) (a : List Operand)
  | Println (a : List Operand)
  | Infoln (a : List Operand)
  | Debugln (a : List Operand)
  | Fatalln (a : List Operand)
  | setDebugMode (b : Bool)
  deriving DecidableEq, Repr

/-- The effect of one operation on the renderer state. -/
def Op.run : Op → Terminal → Terminal
  | .DisableSingleLineMode behavior, t => CodecommitScan.DisableSingleLineMode behavior t
  | ._println f pfx a, t => CodecommitScan._println f pfx a t
  | .Println a, t => CodecommitScan.Println a t
  | .Infoln a, t => CodecommitScan.Infoln a t
  | .Debugln a, t => CodecommitScan.Debugln a t
  | .Fatalln a, t => CodecommitScan.Fatalln a t
  | .setDebugMode b, t => { t with DebugMode := b }

/-- A sequence of operations run in order; `Fatalln` ends the process, so
nothing after it runs. -/
def runOps : List Op → Terminal → Terminal
  | [], t => t
  | .Fatalln a :: _, t => Fatalln a t
  | op :: rest, t => runOps rest (op.run t)

/-- A message as the renderer is asked to show it: stream, severity prefix and
operands. -/
structure Message where
  file : File
  pfx : String
  a : List Operand
  deriving DecidableEq, Repr

/-- The messages a sequence of operations asks for, in order, given the value
of the debug flag at its start: a `Debugln` counts only while the flag is on,
and nothing follows a `Fatalln`. -/
def messages : Bool → List Op → List Message
  | _, [] => []
  | debug, .DisableSingleLineMode _ :: rest => messages debug rest
  | debug, ._println f pfx a :: rest => ⟨f, pfx, a⟩ :: messages debug rest
  | debug, .Println a :: rest => ⟨.Stdout, "", a⟩ :: messages debug rest
  | debug, .Infoln a :: rest => ⟨.Stderr, "[INFO]: ", a⟩ :: messages debug rest
  | debug, .Debugln a :: rest =>
    if debug then ⟨.Stderr, "[DEBUG]: ", a⟩ :: messages debug rest else messages debug rest
  | _, .Fatalln a :: _ => [⟨.Stderr, "[FATAL]: ", a⟩]
  | _, .setDebugMode b :: rest => messages b rest

/-- The permanent-log rendering of the messages addressed to stream `f`: each
one as prefix, message, newline, one after the other. -/
def appendedLines (f : File) : List Message → String
  | [] => ""
  | m :: rest =>
    (if m.file = f then m.pfx ++ Sprint m.a ++ "\n" else "") ++ appendedLines f rest

/-! ## main.go -/

/-- A Go `error` value, by the text of its `Error()` method. -/
abbrev Error := String

/-- The SDK type `types.ApprovalRule`; only the field the program reads. -/
structure ApprovalRule where
  ApprovalRuleContent : Option String
  deriving DecidableEq, Repr

/-- The SDK type `types.PullRequest`; only the fields the program reads. -/
structure PullRequest where
  AuthorArn : Option String
  ApprovalRules : List ApprovalRule
  deriving DecidableEq, Repr

structure GetPullRequestOutput where
  PullRequest : Option PullRequest
  deriving DecidableEq, Repr

structure ListPullRequestsOutput where
  PullRequestIds : List String
  deriving DecidableEq, Repr

/-- The SDK type `types.RepositoryNameIdPair`. -/
structure RepositoryNameIdPair where
  RepositoryName : Option String
  deriving DecidableEq, Repr

structure ListRepositoriesOutput where
  Repositories : List RepositoryNameIdPair
  deriving DecidableEq, Repr

/-- The SDK type `types.User` of the IAM service. -/
structure User where
  UserName : Option String
  UserId : Option String
  Arn : Option String
  deriving DecidableEq, Repr

structure GetUserOutput where
  User : Option User
  deriving DecidableEq, Repr

/-- The IAM client: the answer to `GetUser` with an empty input. -/
structure IamClient where
  GetUser : Except Error GetUserOutput

/-- The CodeCommit client, one function per operation the program calls.
`ListPullRequests` takes the repository name and the optional author filter
(the status filter is always `Open`); `GetPullRequest` takes the pull request
id. -/
structure CodeCommitClient where
  ListRepositories : Except Error ListRepositoriesOutput
  ListPullRequests : String → Option String → Except Error ListPullRequestsOutput
  GetPullRequest : String → Except Error GetPullRequestOutput

/-- The receiver of the scan methods (without its mutex). -/
structure Handle where
  iam : IamClient
  client : CodeCommitClient
  userName : String
  userId : String
  userArn : String
  region : String
  returnMine : Bool
  prs : List String

/-- How a method returning `error` ends: with `nil`, with an error, or in the
panic of a nil pointer dereference. -/
inductive Ret where
  | nil
  | err (e : Error)
  | panic
  deriving DecidableEq, Repr

/-- The URL `AddPR` formats. -/
def prURL (region repositoryName pullRequestId : String) : String :=
  "https://" ++ region ++ ".console.aws.amazon.com/codesuite/codecommit/repositories/"
    ++ repositoryName ++ "/pull-requests/" ++ pullRequestId ++ "/details?region=" ++ region

namespace Handle

def AddPR (h : Handle) (repositoryName pullRequestId : String) : Handle :=
  let url := prURL h.region repositoryName pullRequestId
  { h with prs := h.prs ++ [url] }

/-- The loop over `resp.PullRequest.ApprovalRules` in `checkPullRequest`. -/
def scanRules (h : Handle) (repositoryName pullRequestId : String) :
    List ApprovalRule → Handle × Ret
  | [] => (h, .nil)
  | rule :: rest =>
    match rule.ApprovalRuleContent with
    | none => (h, .panic)
    | some content =>
      if strings.Contains content ("CodeCommitApprovers:" ++ h.userName) then
        (h.AddPR repositoryName pullRequestId, .nil)
      else scanRules h repositoryName pullRequestId rest

def checkPullRequest (h : Handle) (repositoryName pullRequestId : String) : Handle × Ret :=
  match h.client.GetPullRequest pullRequestId with
  | .error err => (h, .err err)
  | .ok resp =>
    match resp.PullRequest with
    | none => (h, .panic)
    | some pr =>
      let isMine :=
        match pr.AuthorArn with
        | none => false
        | some author => author == h.userArn
      if h.returnMine then
        if isMine then (h.AddPR repositoryName pullRequestId, .nil)
        else (h, .nil)
      else if isMine then (h, .nil)
      else scanRules h repositoryName pullRequestId pr.ApprovalRules

/-- The loop over `resp.PullRequestIds` in `checkRepository`. -/
def checkIds (repositoryName : String) : Terminal → Handle → List String → Terminal × Handle × Ret
  | t, h, [] => (t, h, .nil)
  | t, h, id :: rest =>
    let t := Debugln [.str "Found PR: ", .str id] t
    match h.checkPullRequest repositoryName id with
    | (h, .nil) => checkIds repositoryName t h rest
    | (h, r) => (t, h, r)

def checkRepository (t : Terminal) (h : Handle) (repositoryName : String) :
    Terminal × Handle × Ret :=
  let authorArn : Option String := if h.returnMine then some h.userArn else none
  match h.client.ListPullRequests repositoryName authorArn with
  | .error err => (t, h, .err err)
  | .ok resp => checkIds repositoryName t h resp.PullRequestIds

def CacheUserName (h : Handle) : Handle × Ret :=
  match h.iam.GetUser with
  | .error err => (h, .err err)
  | .ok resp =>
    match resp.User with
    | none => (h, .panic)
    | some user =>
      match user.UserName with
      | none => (h, .panic)
      | some userName =>
        let h := { h with userName := userName }
        match user.UserId with
        | none => (h, .panic)
        | some userId =>
          let h := { h with userId := userId }
          match user.Arn with
          | none => (h, .panic)
          | some arn => ({ h with userArn := arn }, .nil)

end Handle

/-- How the process ends: `main` returns (exit status 0), `os.Exit(code)`, or
an unrecovered panic (the report the Go runtime then prints on the diagnostic
stream is not part of the model). -/
inductive Exit where
  | returned
  | exit (code : Int)
  | panic
  deriving DecidableEq, Repr

/-- The parsed command line: `--debug`, `--region` and `--mine`. -/
structure Flags where
  debug : Bool
  region : String
  mine : Bool
  deriving DecidableEq, Repr

/-- What `config.LoadDefaultConfig` followed by `iam.NewFromConfig` and
`codecommit.NewFromConfig` yields. -/
structure Config where
  iam : IamClient
  client : CodeCommitClient

/-- The two colouring functions `ctag` and `ctext` of the `color` library,
which is not part of the repository. -/
structure Colors where
  ctag : String → String
  ctext : String → String

/-- The loop over `repoResp.Repositories` in `main`. -/
def scanRepositories (c : Colors) :
    Terminal → Handle → List RepositoryNameIdPair → Terminal × Handle × Exit
  | t, h, [] => (t, h, .returned)
  | t, h, repository :: rest =>
    match repository.RepositoryName with
    | none => (t, h, .panic)
    | some name =>
      let t := Infoln [.str (c.ctag "Scanning repo:"), .str " ", .str (c.ctext name)] t
      match h.checkRepository t name with
      | (t, h, .nil) => scanRepositories c t h rest
      | (t, h, .err err) => (Fatalln [.val err] t, h, .exit 1)
      | (t, h, .panic) => (t, h, .panic)

/-- The loop `for _, url := range h.prs { Println(url) }`. -/
def printURLs : List String → Terminal → Terminal
  | [], t => t
  | url :: rest, t => printURLs rest (Println [.str url] t)

def main (c : Colors) (flags : Flags) (cfg : Except Error Config) (t : Terminal) :
    Terminal × List String × Exit :=
  let t := { t with DebugMode := flags.debug }
  let t := if t.DebugMode then DisableSingleLineMode 0 t else t
  match cfg with
  | .error err => (Fatalln [.val err] t, [], .exit 1)
  | .ok cfg =>
    let h : Handle :=
      { iam := cfg.iam, client := cfg.client, userName := "", userId := "", userArn := "",
        region := flags.region, returnMine := flags.mine, prs := [] }
    match h.CacheUserName with
    | (h, .err err) => (Fatalln [.val err] t, h.prs, .exit 1)
    | (h, .panic) => (t, h.prs, .panic)
    | (h, .nil) =>
      match h.client.ListRepositories with
      | .error err => (Fatalln [.val err] t, h.prs, .exit 1)
      | .ok repoResp =>
        match scanRepositories c t h repoResp.Repositories with
        | (t, h, .returned) =>
          let t := printURLs h.prs t
          let t := if h.prs.length ≤ 0 then DisableSingleLineMode OnDisableClearLine t else t
          (t, h.prs, .returned)
        | (t, h, e) => (t, h.prs, e)

/-! ## The scan as the specification words it

These definitions follow the specification (sections 4.1 and 6), not the
code; the theorems below compare them with `main`. -/

/-- One URL per line: each URL followed by a single newline, in list order. -/
def urlLines : List String → String
  | [] => ""
  | url :: rest => url ++ "\n" ++ urlLines rest

/-- The decision of `evaluatePullRequest`: in "mine" mode the pull request is
reported iff the identity wrote it; otherwise iff the identity did not write
it and some approval rule's text contains `"CodeCommitApprovers:"` followed by
the user name. -/
def specIncludes (userName userArn : String) (returnMine : Bool) (pr : PullRequest) : Bool :=
  if returnMine then decide (pr.AuthorArn = some userArn)
  else
    !decide (pr.AuthorArn = some userArn) &&
      pr.ApprovalRules.any fun rule =>
        match rule.ApprovalRuleContent with
        | none => false
        | some content => strings.Contains content ("CodeCommitApprovers:" ++ userName)

/-- The URLs one pull request id contributes: its viewer link if its detail
says it is to be reported, nothing otherwise. -/
def specPullRequestURLs (client : CodeCommitClient) (userName userArn region : String)
    (returnMine : Bool) (repositoryName pullRequestId : String) : List String :=
  match client.GetPullRequest pullRequestId with
  | .ok ⟨some pr⟩ =>
    if specIncludes userName userArn returnMine pr then
      [prURL region repositoryName pullRequestId]
    else []
  | _ => []

/-- The URLs one repository contributes: those of its open pull requests, in
listing order. -/
def specRepositoryURLs (client : CodeCommitClient) (userName userArn region : String)
    (returnMine : Bool) (repositoryName : String) : List String :=
  match client.ListPullRequests repositoryName (if returnMine then some userArn else none) with
  | .error _ => []
  | .ok resp =>
    (resp.PullRequestIds.map
      (specPullRequestURLs client userName userArn region returnMine repositoryName)).flatten

/-- The accumulated URLs of a scan: repositories in listing order, pull
requests in listing order inside each repository. -/
def specScanURLs (client : CodeCommitClient) (userName userArn region : String)
    (returnMine : Bool) (repositoryNames : List String) : List String :=
  (repositoryNames.map (specRepositoryURLs client userName userArn region returnMine)).flatten

/-! ## Concrete scenarios -/

/-- A CodeCommit account with one repository `repo1` holding one open pull
request `5` by `author` whose approval rules have the given contents. -/
def scenarioClient (author : String) (rules : List String) : CodeCommitClient where
  ListRepositories := .ok ⟨[⟨some "repo1"⟩]⟩
  ListPullRequests := fun repositoryName authorArn =>
    if repositoryName = "repo1" then
      .ok ⟨if authorArn = none ∨ authorArn = some author then ["5"] else []⟩
    else .error "RepositoryDoesNotExistException"
  GetPullRequest := fun pullRequestId =>
    if pullRequestId = "5" then .ok ⟨some ⟨some author, rules.map fun c => ⟨some c⟩⟩⟩
    else .error "PullRequestDoesNotExistException"

/-- An account whose repositories each list the pull requests `5`, `6`, `7`;
the lookup of `6` fails, the other two are by `bob` with a rule naming
`alice`. -/
def failingClient : CodeCommitClient where
  ListRepositories := .ok ⟨[⟨some "repo1"⟩]⟩
  ListPullRequests := fun _ _ => .ok ⟨["5", "6", "7"]⟩
  GetPullRequest := fun pullRequestId =>
    if pullRequestId = "6" then .error "ThrottlingException"
    else .ok ⟨some ⟨some "arn:aws:iam::1:user/bob", [⟨some "CodeCommitApprovers:alice"⟩]⟩⟩

def aliceArn : String := "arn:aws:iam::1:user/alice"

def bobArn : String := "arn:aws:iam::1:user/bob"

/-- The IAM service answering for user `alice`. -/
def aliceIam : IamClient where
  GetUser := .ok ⟨some ⟨some "alice", some "AIDAALICE", some aliceArn⟩⟩

/-- The handle of user `alice` in region `us-east-2` against `scenarioClient`,
with an empty result list. -/
def scenarioHandle (author : String) (rules : List String) (returnMine : Bool) : Handle where
  iam := aliceIam
  client := scenarioClient author rules
  userName := "alice"
  userId := "AIDAALICE"
  userArn := aliceArn
  region := "us-east-2"
  returnMine := returnMine
  prs := []

/-- What loading the configuration yields in the scenario. -/
def scenarioConfig (author : String) (rules : List String) : Config where
  iam := aliceIam
  client := scenarioClient author rules

/-- Colouring by ANSI escape codes: cyan tags, yellow text. -/
def ansiColors : Colors where
  ctag := fun s => "\x1b[36m" ++ s ++ "\x1b[0m"
  ctext := fun s => "\x1b[33m" ++ s ++ "\x1b[0m"

/-- The renderer state at process start with standard output redirected and
the diagnostic stream a terminal. -/
def startTerminal : Terminal where
  DebugMode := false
  singleLineMode := true
  stdoutTTY := false
  stderrTTY := true
  stdout := ""
  stderr := ""

/-- The pull request record `scenarioClient` returns for id `5`. -/
def scenarioPR (author : String) (rules : List String) : PullRequest :=
  ⟨some author, rules.map fun c => ⟨some c⟩⟩



/-! ## The library functions -/

theorem strings.hasPrefixChars_iff (s p : List Char) :
    strings.hasPrefixChars s p = true ↔ p <+: s := by
  induction s generalizing p with
  | nil => cases p <;> simp [strings.hasPrefixChars]
  | cons c s ih =>
    cases p with
    | nil => simp [strings.hasPrefixChars]
    | cons d p =>
      simp only [strings.hasPrefixChars, Bool.and_eq_true, beq_iff_eq, ih, List.cons_prefix_cons]
      exact ⟨fun ⟨hcd, hp⟩ => ⟨hcd.symm, hp⟩, fun ⟨hcd, hp⟩ => ⟨hcd.symm, hp⟩⟩

/-- `strings.Contains s substr` holds exactly when the characters of `substr`
occur as a contiguous block in `s`. -/
theorem strings.Contains_iff (s substr : String) :
    strings.Contains s substr = true ↔ substr.data <:+: s.data := by
  unfold strings.Contains
  induction s.data with
  | nil =>
    rw [strings.containsChars, strings.hasPrefixChars_iff, List.prefix_nil, List.infix_nil]
  | cons c l ih =>
    rw [strings.containsChars, Bool.or_eq_true, strings.hasPrefixChars_iff, ih,
      List.infix_cons_iff]

/-! ## Properties of the renderer -/

@[simp] theorem write_singleLineMode (f : File) (s : String) (t : Terminal) :
    (write f s t).singleLineMode = t.singleLineMode := by
  cases f <;> rfl

@[simp] theorem write_DebugMode (f : File) (s : String) (t : Terminal) :
    (write f s t).DebugMode = t.DebugMode := by
  cases f <;> rfl

@[simp] theorem write_stdout (f : File) (s : String) (t : Terminal) :
    (write f s t).stdout = t.stdout ++ (if f = .Stdout then s else "") := by
  cases f <;> simp [write]

@[simp] theorem write_stderr (f : File) (s : String) (t : Terminal) :
    (write f s t).stderr = t.stderr ++ (if f = .Stderr then s else "") := by
  cases f <;> simp [write]

/-- In multi-line mode `DisableSingleLineMode` returns at once. -/
theorem DisableSingleLineMode_of_multiLine (b : OnDisableBehavior) (t : Terminal)
    (hm : t.singleLineMode = false) : DisableSingleLineMode b t = t := by
  simp [DisableSingleLineMode, hm]

/-- After `DisableSingleLineMode` the mode is multi-line. -/
theorem DisableSingleLineMode_singleLineMode (b : OnDisableBehavior) (t : Terminal) :
    (DisableSingleLineMode b t).singleLineMode = false := by
  unfold DisableSingleLineMode clearLine
  cases hs : t.singleLineMode
  · simp [hs]
  · simp only [Bool.not_true, Bool.false_eq_true, if_false]
    split_ifs <;> simp

/-- `DisableSingleLineMode` never touches standard output or the debug flag. -/
theorem DisableSingleLineMode_stdout (b : OnDisableBehavior) (t : Terminal) :
    (DisableSingleLineMode b t).stdout = t.stdout ∧
    (DisableSingleLineMode b t).DebugMode = t.DebugMode ∧
    (DisableSingleLineMode b t).stdoutTTY = t.stdoutTTY ∧
    (DisableSingleLineMode b t).stderrTTY = t.stderrTTY := by
  obtain ⟨debug, mode, outTTY, errTTY, out, err⟩ := t
  cases mode <;> cases errTTY <;>
    simp only [DisableSingleLineMode, clearLine, isTerminal, write] <;> split_ifs <;> simp

/-- In multi-line mode `_println` writes prefix, message and newline. -/
theorem _println_of_multiLine (f : File) (pfx : String) (a : List Operand) (t : Terminal)
    (hm : t.singleLineMode = false) :
    _println f pfx a t = write f "\n" (write f (Sprint a) (write f pfx t)) := by
  simp [_println, hm]

/-- Effect of one operation on a renderer in multi-line mode: the mode stays,
and each stream grows by the permanent-log rendering of the message. -/
theorem Op.run_of_multiLine (op : Op) (t : Terminal) (hm : t.singleLineMode = false) :
    (op.run t).singleLineMode = false ∧
    (op.run t).stdout = t.stdout ++ appendedLines .Stdout (messages t.DebugMode [op]) ∧
    (op.run t).stderr = t.stderr ++ appendedLines .Stderr (messages t.DebugMode [op]) := by
  cases op with
  | DisableSingleLineMode b =>
    simp [Op.run, DisableSingleLineMode_of_multiLine b t hm, hm, messages, appendedLines]
  | _println f pfx a =>
    cases f <;>
      simp [Op.run, _println_of_multiLine _ pfx a t hm, hm, messages, appendedLines,
        String.append_assoc]
  | Println a =>
    simp [Op.run, CodecommitScan.Println, DisableSingleLineMode_of_multiLine _ t hm,
      _println_of_multiLine _ _ a t hm, hm, messages, appendedLines, String.append_assoc]
  | Infoln a =>
    simp [Op.run, CodecommitScan.Infoln, _println_of_multiLine _ _ a t hm, hm, messages, appendedLines,
      String.append_assoc]
  | Debugln a =>
    cases hd : t.DebugMode <;>
      simp [Op.run, CodecommitScan.Debugln, hd, DisableSingleLineMode_of_multiLine _ t hm,
        _println_of_multiLine _ _ a t hm, hm, messages, appendedLines, String.append_assoc]
  | Fatalln a =>
    simp [Op.run, CodecommitScan.Fatalln, DisableSingleLineMode_of_multiLine _ t hm,
      _println_of_multiLine _ _ a t hm, hm, messages, appendedLines, String.append_assoc]
  | setDebugMode b =>
    simp [Op.run, hm, messages, appendedLines]

@[simp] theorem clearLine_frame (f : File) (t : Terminal) :
    (clearLine f t).DebugMode = t.DebugMode ∧
    (clearLine f t).singleLineMode = t.singleLineMode := by
  unfold clearLine
  split_ifs <;> simp

/-- `_println` changes neither the debug flag nor the mode. -/
theorem _println_frame (f : File) (pfx : String) (a : List Operand) (t : Terminal) :
    (_println f pfx a t).DebugMode = t.DebugMode ∧
    (_println f pfx a t).singleLineMode = t.singleLineMode := by
  unfold _println
  cases hs : t.singleLineMode <;> simp [hs]

/-- The messages of a sequence that starts with `op`, split at `op`. -/
theorem messages_cons (op : Op) (rest : List Op) (t : Terminal) :
    messages t.DebugMode (op :: rest) =
      match op with
      | .Fatalln a => [⟨.Stderr, "[FATAL]: ", a⟩]
      | _ => messages t.DebugMode [op] ++ messages (op.run t).DebugMode rest := by
  cases op with
  | DisableSingleLineMode b =>
    simp [messages, Op.run, (DisableSingleLineMode_stdout b t).2.1]
  | _println f pfx a => simp [messages, Op.run, (_println_frame f pfx a t).1]
  | Println a =>
    simp [messages, Op.run, CodecommitScan.Println, (_println_frame _ _ a _).1,
      (DisableSingleLineMode_stdout _ t).2.1]
  | Infoln a => simp [messages, Op.run, CodecommitScan.Infoln, (_println_frame _ _ a t).1]
  | Debugln a =>
    cases hd : t.DebugMode <;>
      simp [messages, Op.run, CodecommitScan.Debugln, (_println_frame _ _ a _).1, hd,
        (DisableSingleLineMode_stdout _ t).2.1]
  | Fatalln a => simp [messages]
  | setDebugMode b => simp [messages, Op.run]

theorem appendedLines_append (f : File) (l₁ l₂ : List Message) :
    appendedLines f (l₁ ++ l₂) = appendedLines f l₁ ++ appendedLines f l₂ := by
  induction l₁ with
  | nil => simp [appendedLines]
  | cons m rest ih => simp [appendedLines, ih, String.append_assoc]

/-- A run that starts in multi-line mode: the mode stays and both streams grow
by the permanent-log rendering of the messages. -/
theorem runOps_of_multiLine (ops : List Op) (t : Terminal) (hm : t.singleLineMode = false) :
    (runOps ops t).singleLineMode = false ∧
    (runOps ops t).stdout = t.stdout ++ appendedLines .Stdout (messages t.DebugMode ops) ∧
    (runOps ops t).stderr = t.stderr ++ appendedLines .Stderr (messages t.DebugMode ops) := by
  induction ops generalizing t with
  | nil => simp [runOps, messages, appendedLines, hm]
  | cons op rest ih =>
    have hop := Op.run_of_multiLine op t hm
    have hmsg := messages_cons op rest t
    have hrest := ih (op.run t) hop.1
    cases op with
    | Fatalln a => exact hop
    | DisableSingleLineMode b =>
      simp only [runOps, hmsg, appendedLines_append, hrest, hop, String.append_assoc, and_self]
    | _println f pfx a =>
      simp only [runOps, hmsg, appendedLines_append, hrest, hop, String.append_assoc, and_self]
    | Println a =>
      simp only [runOps, hmsg, appendedLines_append, hrest, hop, String.append_assoc, and_self]
    | Infoln a =>
      simp only [runOps, hmsg, appendedLines_append, hrest, hop, String.append_assoc, and_self]
    | Debugln a =>
      simp only [runOps, hmsg, appendedLines_append, hrest, hop, String.append_assoc, and_self]
    | setDebugMode b =>
      simp only [runOps, hmsg, appendedLines_append, hrest, hop, String.append_assoc, and_self]

/-- C7: render mode is monotonic.  For every sequence of renderer operations
from any state, if the mode is multi-line after a first part of the sequence
then it is multi-line after every longer part of it: no operation sets
`singleLineMode` back to `true`. -/
theorem renderMode_monotonic (ops later : List Op) (t : Terminal)
    (hm : (runOps ops t).singleLineMode = false) :
    (runOps (ops ++ later) t).singleLineMode = false := by
  induction ops generalizing t with
  | nil => exact (runOps_of_multiLine later t hm).1
  | cons op rest ih =>
    cases op with
    | Fatalln a => exact hm
    | DisableSingleLineMode b => exact ih _ hm
    | _println f pfx a => exact ih _ hm
    | Println a => exact ih _ hm
    | Infoln a => exact ih _ hm
    | Debugln a => exact ih _ hm
    | setDebugMode b => exact ih _ hm

theorem renderMode_monotonic_witness :
    (runOps [.Infoln [.str "a"], .Println [.str "u"]]
        ⟨false, true, true, true, "", ""⟩).singleLineMode = false ∧
    (runOps ([.Infoln [.str "a"], .Println [.str "u"]] ++
        [.Infoln [.str "b"], .setDebugMode true, .Debugln [.str "c"],
          ._println .Stdout "" [.str "d"], .DisableSingleLineMode 2])
        ⟨false, true, true, true, "", ""⟩).singleLineMode = false :=
  ⟨by decide, renderMode_monotonic _ _ _ (by decide)⟩

/-- C8: once the mode is multi-line, whatever the terminal status of the two
streams, every later sequence of operations leaves the mode multi-line and
appends to each stream exactly its messages, each as prefix, message, newline:
no line-erase sequence is written and nothing written before is replaced. -/
theorem multiLine_appends_only (ops : List Op) (t : Terminal)
    (hm : t.singleLineMode = false) :
    (runOps ops t).singleLineMode = false ∧
    (runOps ops t).stdout = t.stdout ++ appendedLines .Stdout (messages t.DebugMode ops) ∧
    (runOps ops t).stderr = t.stderr ++ appendedLines .Stderr (messages t.DebugMode ops) :=
  runOps_of_multiLine ops t hm

theorem multiLine_appends_only_witness :
    (runOps [.Infoln [.str "a"], .Println [.str "u"], .Debugln [.str "c"]]
        ⟨true, false, true, true, "x", "y"⟩).singleLineMode = false ∧
    (runOps [.Infoln [.str "a"], .Println [.str "u"], .Debugln [.str "c"]]
        ⟨true, false, true, true, "x", "y"⟩).stdout = "x" ++ "u\n" ∧
    (runOps [.Infoln [.str "a"], .Println [.str "u"], .Debugln [.str "c"]]
        ⟨true, false, true, true, "x", "y"⟩).stderr = "y" ++ "[INFO]: a\n[DEBUG]: c\n" :=
  multiLine_appends_only [.Infoln [.str "a"], .Println [.str "u"], .Debugln [.str "c"]]
    ⟨true, false, true, true, "x", "y"⟩ rfl

/-- C9 as stated fails: in single-line mode with the diagnostic stream a
terminal, `DisableSingleLineMode(0)` (the call `main` makes under `--debug`)
does not erase the visible line; it writes nothing. -/
theorem DisableSingleLineMode_erase_counterexample :
    ¬ ∀ (b : OnDisableBehavior) (t : Terminal),
        t.singleLineMode = true → t.stderrTTY = true → b ≠ OnDisableNewLine →
        (DisableSingleLineMode b t).stderr = t.stderr ++ "\n\x1b[1A\x1b[K" := by
  intro hall
  have herase := hall 0 ⟨false, true, true, true, "", "[INFO]: Scanning repo: repo1"⟩
    rfl rfl (by decide)
  revert herase
  decide

/-- C9 amended: `DisableSingleLineMode` is a no-op in multi-line mode, so a
second call changes nothing; in single-line mode it sets the mode to
multi-line and writes to the diagnostic stream only: with `OnDisableClearLine`
(2) the erase sequence newline, `ESC [1A`, `ESC [K` if that stream is a
terminal and nothing if it is not, with `OnDisableNewLine` (1) one newline,
with any other value nothing. -/
theorem DisableSingleLineMode_spec (b : OnDisableBehavior) (t : Terminal)
    (hs : t.singleLineMode = true) :
    DisableSingleLineMode b t =
      { t with
        singleLineMode := false
        stderr := t.stderr ++
          (if b = 2 then (if t.stderrTTY = true then "\n\x1b[1A\x1b[K" else "")
           else if b = 1 then "\n" else "") } ∧
    DisableSingleLineMode b (DisableSingleLineMode b t) = DisableSingleLineMode b t ∧
    (∀ t₁ : Terminal, t₁.singleLineMode = false → DisableSingleLineMode b t₁ = t₁) := by
  refine ⟨?_, ?_, fun t₁ => DisableSingleLineMode_of_multiLine b t₁⟩
  · obtain ⟨debug, mode, outTTY, errTTY, out, err⟩ := t
    cases errTTY <;>
      simp only [DisableSingleLineMode, clearLine, isTerminal, write, eraseSeq,
        OnDisableClearLine, OnDisableNewLine] <;> split_ifs <;> simp_all
  · exact DisableSingleLineMode_of_multiLine b _ (DisableSingleLineMode_singleLineMode b t)

theorem DisableSingleLineMode_spec_witness :
    DisableSingleLineMode OnDisableClearLine ⟨false, true, true, true, "", "[INFO]: a"⟩
      = ⟨false, false, true, true, "", "[INFO]: a\n\x1b[1A\x1b[K"⟩ ∧
    DisableSingleLineMode OnDisableClearLine ⟨false, true, true, false, "", "[INFO]: a"⟩
      = ⟨false, false, true, false, "", "[INFO]: a"⟩ ∧
    DisableSingleLineMode OnDisableNewLine ⟨false, true, true, true, "", "[INFO]: a"⟩
      = ⟨false, false, true, true, "", "[INFO]: a\n"⟩ ∧
    DisableSingleLineMode 0 ⟨false, true, true, true, "", "[INFO]: a"⟩
      = ⟨false, false, true, true, "", "[INFO]: a"⟩ ∧
    DisableSingleLineMode OnDisableClearLine
        (DisableSingleLineMode OnDisableClearLine ⟨false, true, true, true, "", "[INFO]: a"⟩)
      = DisableSingleLineMode OnDisableClearLine ⟨false, true, true, true, "", "[INFO]: a"⟩ :=
  ⟨(DisableSingleLineMode_spec OnDisableClearLine
      ⟨false, true, true, true, "", "[INFO]: a"⟩ rfl).1.trans (by decide),
    (DisableSingleLineMode_spec OnDisableClearLine
      ⟨false, true, true, false, "", "[INFO]: a"⟩ rfl).1.trans (by decide),
    (DisableSingleLineMode_spec OnDisableNewLine
      ⟨false, true, true, true, "", "[INFO]: a"⟩ rfl).1.trans (by decide),
    (DisableSingleLineMode_spec 0
      ⟨false, true, true, true, "", "[INFO]: a"⟩ rfl).1.trans (by decide),
    (DisableSingleLineMode_spec OnDisableClearLine
      ⟨false, true, true, true, "", "[INFO]: a"⟩ rfl).2.1⟩

/-- C10: in single-line mode `Infoln` leaves the whole state as it was except
for the diagnostic stream, to which it writes the erase sequence (newline,
`ESC [1A`, `ESC [K`) exactly when that stream is a terminal and nothing in its
place when it is not, then `"[INFO]: "` and the message, without a newline; so
the mode is still single-line after any number of `Infoln` calls. -/
theorem Infoln_singleLine (a : List Operand) (t : Terminal) (hs : t.singleLineMode = true) :
    Infoln a t =
      { t with stderr := t.stderr ++ (if t.stderrTTY = true then "\n\x1b[1A\x1b[K" else "")
          ++ "[INFO]: " ++ Sprint a } ∧
    (Infoln a t).singleLineMode = true ∧
    ∀ msgs : List (List Operand), (runOps (msgs.map Op.Infoln) t).singleLineMode = true := by
  refine ⟨?_, (_println_frame .Stderr "[INFO]: " a t).2.trans hs, ?_⟩
  · obtain ⟨debug, mode, outTTY, errTTY, out, err⟩ := t
    cases errTTY <;>
      simp_all [Infoln, _println, clearLine, isTerminal, write, eraseSeq, String.append_assoc]
  · intro msgs
    induction msgs generalizing t with
    | nil => exact hs
    | cons m rest ih =>
      exact ih (Infoln m t) ((_println_frame .Stderr "[INFO]: " m t).2.trans hs)

theorem Infoln_singleLine_witness :
    Infoln [.str "Scanning repo:", .str " ", .str "repo1"]
        ⟨false, true, false, true, "", "[INFO]: old"⟩ =
      ⟨false, true, false, true, "",
        "[INFO]: old\n\x1b[1A\x1b[K[INFO]: Scanning repo: repo1"⟩ ∧
    Infoln [.str "Scanning repo:", .str " ", .str "repo1"]
        ⟨false, true, false, false, "", "[INFO]: old"⟩ =
      ⟨false, true, false, false, "", "[INFO]: old[INFO]: Scanning repo: repo1"⟩ ∧
    (runOps ([[.str "a"], [.str "b"], [.str "c"]].map Op.Infoln)
        ⟨false, true, false, true, "", ""⟩).singleLineMode = true :=
  ⟨(Infoln_singleLine [.str "Scanning repo:", .str " ", .str "repo1"]
      ⟨false, true, false, true, "", "[INFO]: old"⟩ rfl).1.trans (by decide),
    (Infoln_singleLine [.str "Scanning repo:", .str " ", .str "repo1"]
      ⟨false, true, false, false, "", "[INFO]: old"⟩ rfl).1.trans (by decide),
    (Infoln_singleLine [.str "a"] ⟨false, true, false, true, "", ""⟩ rfl).2.2
      [[.str "a"], [.str "b"], [.str "c"]]⟩

/-! ## What reaches standard output -/

theorem clearLine_stdout_of_stderr (t : Terminal) :
    (clearLine .Stderr t).stdout = t.stdout := by
  unfold clearLine
  split_ifs <;> simp

/-- `_println` on the diagnostic stream leaves standard output as it is. -/
theorem _println_stderr_stdout (pfx : String) (a : List Operand) (t : Terminal) :
    (_println .Stderr pfx a t).stdout = t.stdout := by
  unfold _println
  cases hs : t.singleLineMode <;> simp [hs, clearLine_stdout_of_stderr]

theorem Infoln_stdout (a : List Operand) (t : Terminal) : (Infoln a t).stdout = t.stdout :=
  _println_stderr_stdout _ a t

theorem Debugln_stdout (a : List Operand) (t : Terminal) : (Debugln a t).stdout = t.stdout := by
  unfold Debugln
  split_ifs
  · rfl
  · rw [_println_stderr_stdout, (DisableSingleLineMode_stdout _ t).1]

theorem Fatalln_stdout (a : List Operand) (t : Terminal) : (Fatalln a t).stdout = t.stdout := by
  unfold Fatalln
  rw [_println_stderr_stdout, (DisableSingleLineMode_stdout _ t).1]

/-- `Println` appends the message and a newline to standard output, nothing
else. -/
theorem Println_stdout (a : List Operand) (t : Terminal) :
    (Println a t).stdout = t.stdout ++ Sprint a ++ "\n" := by
  unfold Println
  rw [_println_of_multiLine _ _ a _ (DisableSingleLineMode_singleLineMode _ t)]
  simp [(DisableSingleLineMode_stdout OnDisableClearLine t).1, String.append_assoc]

theorem printURLs_stdout (urls : List String) (t : Terminal) :
    (printURLs urls t).stdout = t.stdout ++ urlLines urls := by
  induction urls generalizing t with
  | nil => simp [printURLs, urlLines]
  | cons url rest ih =>
    rw [printURLs, ih, Println_stdout]
    simp [Sprint, sprintRest, Operand.text, urlLines, String.append_assoc]

/-! ## Properties of `checkPullRequest` -/

theorem isMine_eq_decide (author : Option String) (arn : String) :
    (match author with
      | none => false
      | some a => a == arn) = decide (author = some arn) := by
  cases author <;> simp [beq_eq_decide]

/-- What `scanRules` does to the handle: nothing but possibly one `AddPR`. -/
theorem scanRules_fst (h : Handle) (repo id : String) (rules : List ApprovalRule) :
    (h.scanRules repo id rules).1 = h ∨ (h.scanRules repo id rules).1 = h.AddPR repo id := by
  induction rules with
  | nil => simp [Handle.scanRules]
  | cons rule rest ih =>
    unfold Handle.scanRules
    split
    · simp
    · split
      · simp
      · exact ih

/-- A scan over rules that all carry content ends normally. -/
theorem scanRules_snd_of_content (h : Handle) (repo id : String) (rules : List ApprovalRule)
    (hc : ∀ r ∈ rules, r.ApprovalRuleContent ≠ none) :
    (h.scanRules repo id rules).2 = .nil := by
  induction rules with
  | nil => simp [Handle.scanRules]
  | cons rule rest ih =>
    unfold Handle.scanRules
    split
    · rename_i hnone
      exact absurd hnone (hc rule (List.mem_cons_self _ _))
    · split
      · simp
      · exact ih fun r hr => hc r (List.mem_cons_of_mem _ hr)

/-- A scan that ends normally appended the URL when some rule matches. -/
theorem scanRules_of_match (h : Handle) (repo id : String) (rules : List ApprovalRule)
    (hok : (h.scanRules repo id rules).2 = .nil)
    (hm : ∃ r ∈ rules, ∃ c, r.ApprovalRuleContent = some c ∧
      strings.Contains c ("CodeCommitApprovers:" ++ h.userName) = true) :
    (h.scanRules repo id rules).1 = h.AddPR repo id := by
  induction rules with
  | nil => simp at hm
  | cons rule rest ih =>
    unfold Handle.scanRules at hok ⊢
    split at hok
    · simp at hok
    · rename_i content hcontent
      by_cases hcon : strings.Contains content ("CodeCommitApprovers:" ++ h.userName) = true
      · simp [hcon]
      · simp only [hcon, if_false] at hok ⊢
        refine ih hok ?_
        obtain ⟨r, hr, c, hrc, hcc⟩ := hm
        rcases List.mem_cons.mp hr with rfl | hr
        · rw [hcontent] at hrc
          cases hrc
          exact absurd hcc hcon
        · exact ⟨r, hr, c, hrc, hcc⟩

/-- A scan in which no rule matches leaves the handle as it was. -/
theorem scanRules_of_no_match (h : Handle) (repo id : String) (rules : List ApprovalRule)
    (hm : ¬ ∃ r ∈ rules, ∃ c, r.ApprovalRuleContent = some c ∧
      strings.Contains c ("CodeCommitApprovers:" ++ h.userName) = true) :
    (h.scanRules repo id rules).1 = h := by
  induction rules with
  | nil => simp [Handle.scanRules]
  | cons rule rest ih =>
    unfold Handle.scanRules
    split
    · rfl
    · rename_i content hcontent
      by_cases hcon : strings.Contains content ("CodeCommitApprovers:" ++ h.userName) = true
      · exact absurd ⟨rule, List.mem_cons_self _ _, content, hcontent, hcon⟩ hm
      · simp only [hcon, if_false]
        exact ih fun ⟨r, hr, hrest⟩ => hm ⟨r, List.mem_cons_of_mem _ hr, hrest⟩

/-- The outcome of `checkPullRequest` once the lookup has returned a pull
request, with the authorship test written as an equation. -/
theorem checkPullRequest_of_lookup (h : Handle) (repo id : String) (pr : PullRequest)
    (hget : h.client.GetPullRequest id = .ok ⟨some pr⟩) :
    h.checkPullRequest repo id =
      if h.returnMine = true then
        if pr.AuthorArn = some h.userArn then (h.AddPR repo id, .nil) else (h, .nil)
      else if pr.AuthorArn = some h.userArn then (h, .nil)
      else h.scanRules repo id pr.ApprovalRules := by
  unfold Handle.checkPullRequest
  rw [hget]
  simp only [isMine_eq_decide, decide_eq_true_eq]

theorem prs_ne_append_singleton (l : List String) (u : String) : l ≠ l ++ [u] := by
  intro hl
  have hlen := congrArg List.length hl
  simp at hlen

/-- What `checkPullRequest` does to the handle, whatever the outcome: nothing
but possibly one `AddPR`. -/
theorem checkPullRequest_fst (h : Handle) (repo id : String) :
    (h.checkPullRequest repo id).1 = h ∨ (h.checkPullRequest repo id).1 = h.AddPR repo id := by
  cases hget : h.client.GetPullRequest id with
  | error e => simp [Handle.checkPullRequest, hget]
  | ok resp =>
    cases hpr : resp.PullRequest with
    | none => simp [Handle.checkPullRequest, hget, hpr]
    | some pr =>
      have hlookup : h.client.GetPullRequest id = .ok ⟨some pr⟩ := by
        rw [hget, ← hpr]
      rw [checkPullRequest_of_lookup h repo id pr hlookup]
      split_ifs
      · exact Or.inr rfl
      · exact Or.inl rfl
      · exact Or.inl rfl
      · exact scanRules_fst h repo id _

/-- The client a handle talks to is the same after `checkPullRequest`. -/
theorem checkPullRequest_client (h : Handle) (repo id : String) :
    (h.checkPullRequest repo id).1.client = h.client := by
  rcases checkPullRequest_fst h repo id with hfst | hfst
  · rw [hfst]
  · rw [hfst]
    rfl

/-- A lookup error is returned as it is, with the handle untouched. -/
theorem checkPullRequest_of_error (h : Handle) (repo id : String) (e : Error)
    (hget : h.client.GetPullRequest id = .error e) :
    h.checkPullRequest repo id = (h, .err e) := by
  simp [Handle.checkPullRequest, hget]

/-- A call that ends normally had a successful lookup. -/
theorem lookup_of_checkPullRequest_nil (h : Handle) (repo id : String)
    (hok : (h.checkPullRequest repo id).2 = .nil) :
    ∃ out, h.client.GetPullRequest id = .ok out := by
  cases hget : h.client.GetPullRequest id with
  | error e => simp [Handle.checkPullRequest, hget] at hok
  | ok resp => exact ⟨resp, rfl⟩

/-- One step of the loop over the pull request ids. -/
theorem checkIds_cons (repo : String) (t : Terminal) (h : Handle) (id : String)
    (rest : List String) :
    Handle.checkIds repo t h (id :: rest) =
      if (h.checkPullRequest repo id).2 = .nil then
        Handle.checkIds repo (Debugln [.str "Found PR: ", .str id] t)
          (h.checkPullRequest repo id).1 rest
      else (Debugln [.str "Found PR: ", .str id] t, (h.checkPullRequest repo id).1,
        (h.checkPullRequest repo id).2) := by
  rw [Handle.checkIds]
  rcases hres : h.checkPullRequest repo id with ⟨h', r⟩
  cases r <;> simp

/-- The loop over a list of ids whose first part completes normally continues
with the rest from the state that first part left. -/
theorem checkIds_append (repo : String) (t : Terminal) (h : Handle) (pre rest : List String)
    (hpre : (Handle.checkIds repo t h pre).2.2 = .nil) :
    Handle.checkIds repo t h (pre ++ rest) =
      Handle.checkIds repo (Handle.checkIds repo t h pre).1 (Handle.checkIds repo t h pre).2.1
        rest := by
  induction pre generalizing t h with
  | nil => rfl
  | cons id pre ih =>
    rw [List.cons_append, checkIds_cons]
    rw [checkIds_cons] at hpre ⊢
    by_cases hok : (h.checkPullRequest repo id).2 = .nil
    · simp only [hok, if_true] at hpre ⊢
      exact ih _ _ hpre
    · simp only [hok, if_false] at hpre

/-- The client is the same after the loop over the pull request ids. -/
theorem checkIds_client (repo : String) (t : Terminal) (h : Handle) (ids : List String) :
    (Handle.checkIds repo t h ids).2.1.client = h.client := by
  induction ids generalizing t h with
  | nil => rfl
  | cons id rest ih =>
    rw [checkIds_cons]
    split_ifs
    · rw [ih, checkPullRequest_client]
    · exact checkPullRequest_client h repo id

/-- A loop that completes normally had every lookup succeed. -/
theorem lookups_of_checkIds_nil (repo : String) (t : Terminal) (h : Handle) (ids : List String)
    (hok : (Handle.checkIds repo t h ids).2.2 = .nil) :
    ∀ x ∈ ids, ∃ out, h.client.GetPullRequest x = .ok out := by
  induction ids generalizing t h with
  | nil => simp
  | cons id rest ih =>
    rw [checkIds_cons] at hok
    by_cases hid : (h.checkPullRequest repo id).2 = .nil
    · simp only [hid, if_true] at hok
      intro x hx
      rcases List.mem_cons.mp hx with rfl | hx
      · exact lookup_of_checkPullRequest_nil h repo x hid
      · have hrest := ih _ _ hok x hx
        rwa [checkPullRequest_client] at hrest
    · simp only [hid, if_false] at hok

/-- C1: with `returnMine` set, `checkPullRequest` on a pull request the lookup
returned ends normally and appends the pull request's URL to the result list
if and only if the author ARN equals the identity's ARN (otherwise the list
keeps its value), whatever the approval rules are. -/
theorem checkPullRequest_returnMine (h : Handle) (repo id : String) (pr : PullRequest)
    (hget : h.client.GetPullRequest id = .ok ⟨some pr⟩) (hmine : h.returnMine = true) :
    (h.checkPullRequest repo id).2 = .nil ∧
    ((h.checkPullRequest repo id).1.prs = h.prs ++ [prURL h.region repo id] ↔
      pr.AuthorArn = some h.userArn) ∧
    (pr.AuthorArn ≠ some h.userArn → (h.checkPullRequest repo id).1.prs = h.prs) := by
  rw [checkPullRequest_of_lookup h repo id pr hget]
  by_cases ha : pr.AuthorArn = some h.userArn
  · simp [hmine, ha, Handle.AddPR]
  · simp only [hmine, ha, if_true, if_false, true_and, iff_false, not_false_eq_true,
      forall_true_left, and_true]
    exact ⟨prs_ne_append_singleton _ _, fun _ => trivial⟩

theorem checkPullRequest_returnMine_witness :
    ((scenarioHandle aliceArn ["CodeCommitApprovers:bob"] true).checkPullRequest "repo1" "5").2
        = .nil ∧
    (((scenarioHandle aliceArn ["CodeCommitApprovers:bob"] true).checkPullRequest "repo1" "5").1.prs
        = [] ++ [prURL "us-east-2" "repo1" "5"] ↔
      (scenarioPR aliceArn ["CodeCommitApprovers:bob"]).AuthorArn = some aliceArn) ∧
    ((scenarioPR aliceArn ["CodeCommitApprovers:bob"]).AuthorArn ≠ some aliceArn →
      ((scenarioHandle aliceArn ["CodeCommitApprovers:bob"] true).checkPullRequest "repo1" "5").1.prs
        = []) :=
  checkPullRequest_returnMine (scenarioHandle aliceArn ["CodeCommitApprovers:bob"] true)
    "repo1" "5" (scenarioPR aliceArn ["CodeCommitApprovers:bob"]) rfl rfl

/-- C2: with `returnMine` unset, `checkPullRequest` on a pull request whose
author ARN equals the identity's ARN returns `nil` and leaves the handle, and
so the result list, unchanged, whatever the approval rules are. -/
theorem checkPullRequest_self_authored (h : Handle) (repo id : String) (pr : PullRequest)
    (hget : h.client.GetPullRequest id = .ok ⟨some pr⟩) (hmine : h.returnMine = false)
    (hauthor : pr.AuthorArn = some h.userArn) :
    h.checkPullRequest repo id = (h, .nil) ∧ (h.checkPullRequest repo id).1.prs = h.prs := by
  rw [checkPullRequest_of_lookup h repo id pr hget]
  simp [hmine, hauthor]

theorem checkPullRequest_self_authored_witness :
    (scenarioHandle aliceArn ["...CodeCommitApprovers:alice..."] false).checkPullRequest
        "repo1" "5"
      = (scenarioHandle aliceArn ["...CodeCommitApprovers:alice..."] false, .nil) ∧
    ((scenarioHandle aliceArn ["...CodeCommitApprovers:alice..."] false).checkPullRequest
        "repo1" "5").1.prs = [] :=
  checkPullRequest_self_authored (scenarioHandle aliceArn ["...CodeCommitApprovers:alice..."] false)
    "repo1" "5" (scenarioPR aliceArn ["...CodeCommitApprovers:alice..."]) rfl rfl rfl

/-- C3 as stated fails: with `returnMine` unset, the pull request `5` written
by `alice` herself carries a rule whose content contains
`CodeCommitApprovers:alice`, and its URL is not added to the result list. -/
theorem checkPullRequest_rule_iff_counterexample :
    ¬ ∀ (h : Handle) (repo id : String) (pr : PullRequest),
        h.client.GetPullRequest id = .ok ⟨some pr⟩ → h.returnMine = false →
        ((h.checkPullRequest repo id).1.prs = h.prs ++ [prURL h.region repo id] ↔
          ∃ r ∈ pr.ApprovalRules, ∃ c, r.ApprovalRuleContent = some c ∧
            strings.Contains c ("CodeCommitApprovers:" ++ h.userName) = true) := by
  intro hall
  have hiff := hall (scenarioHandle aliceArn ["...CodeCommitApprovers:alice..."] false)
    "repo1" "5" (scenarioPR aliceArn ["...CodeCommitApprovers:alice..."]) rfl rfl
  have hadded := hiff.mpr ⟨⟨some "...CodeCommitApprovers:alice..."⟩, by decide,
    "...CodeCommitApprovers:alice...", rfl, by decide⟩
  revert hadded
  decide

/-- C3 amended: with `returnMine` unset and a pull request returned by the
lookup whose author ARN is not the identity's ARN, `checkPullRequest` ends
normally when every rule carries content, and whenever it ends normally the
URL is appended to the result list if and only if some approval rule's content
contains `"CodeCommitApprovers:"` followed by the user name (otherwise the list
keeps its value). -/
theorem checkPullRequest_rule_iff (h : Handle) (repo id : String) (pr : PullRequest)
    (hget : h.client.GetPullRequest id = .ok ⟨some pr⟩) (hmine : h.returnMine = false)
    (hauthor : pr.AuthorArn ≠ some h.userArn) :
    ((∀ r ∈ pr.ApprovalRules, r.ApprovalRuleContent ≠ none) →
      (h.checkPullRequest repo id).2 = .nil) ∧
    ((h.checkPullRequest repo id).2 = .nil →
      ((h.checkPullRequest repo id).1.prs = h.prs ++ [prURL h.region repo id] ↔
        ∃ r ∈ pr.ApprovalRules, ∃ c, r.ApprovalRuleContent = some c ∧
          strings.Contains c ("CodeCommitApprovers:" ++ h.userName) = true) ∧
      ((¬ ∃ r ∈ pr.ApprovalRules, ∃ c, r.ApprovalRuleContent = some c ∧
          strings.Contains c ("CodeCommitApprovers:" ++ h.userName) = true) →
        (h.checkPullRequest repo id).1.prs = h.prs)) := by
  rw [checkPullRequest_of_lookup h repo id pr hget]
  simp only [hmine, hauthor, if_false, Bool.false_eq_true]
  refine ⟨scanRules_snd_of_content h repo id _, fun hok => ⟨⟨fun hadd => ?_, fun hm => ?_⟩,
    fun hm => ?_⟩⟩
  · by_contra hm
    rw [scanRules_of_no_match h repo id _ hm] at hadd
    exact prs_ne_append_singleton _ _ hadd
  · rw [scanRules_of_match h repo id _ hok hm]
    rfl
  · rw [scanRules_of_no_match h repo id _ hm]

theorem checkPullRequest_rule_iff_witness :
    ((∀ r ∈ (scenarioPR bobArn ["...CodeCommitApprovers:alice..."]).ApprovalRules,
        r.ApprovalRuleContent ≠ none) →
      ((scenarioHandle bobArn ["...CodeCommitApprovers:alice..."] false).checkPullRequest
        "repo1" "5").2 = .nil) ∧
    (((scenarioHandle bobArn ["...CodeCommitApprovers:alice..."] false).checkPullRequest
        "repo1" "5").2 = .nil →
      (((scenarioHandle bobArn ["...CodeCommitApprovers:alice..."] false).checkPullRequest
          "repo1" "5").1.prs = [] ++ [prURL "us-east-2" "repo1" "5"] ↔
        ∃ r ∈ (scenarioPR bobArn ["...CodeCommitApprovers:alice..."]).ApprovalRules,
          ∃ c, r.ApprovalRuleContent = some c ∧
            strings.Contains c ("CodeCommitApprovers:" ++ "alice") = true) ∧
      ((¬ ∃ r ∈ (scenarioPR bobArn ["...CodeCommitApprovers:alice..."]).ApprovalRules,
          ∃ c, r.ApprovalRuleContent = some c ∧
            strings.Contains c ("CodeCommitApprovers:" ++ "alice") = true) →
        ((scenarioHandle bobArn ["...CodeCommitApprovers:alice..."] false).checkPullRequest
          "repo1" "5").1.prs = [])) :=
  checkPullRequest_rule_iff (scenarioHandle bobArn ["...CodeCommitApprovers:alice..."] false)
    "repo1" "5" (scenarioPR bobArn ["...CodeCommitApprovers:alice..."]) rfl rfl (by decide)

/-- C4: whatever the outcome, and so after every successful call,
`checkPullRequest` leaves the result list equal to `L` or to `L` followed by
the one URL built from region, repository name and pull request id; in the
spec scenario (region `us-east-2`, `repo1`, pull request `5` by `bob`, one rule
containing `CodeCommitApprovers:alice`, identity `alice`) the call succeeds
with exactly the scenario's URL, and with three matching rules the URL is
still appended once. -/
theorem checkPullRequest_appends_at_most_one :
    (∀ (h : Handle) (repo id : String),
      (h.checkPullRequest repo id).1.prs = h.prs ∨
      (h.checkPullRequest repo id).1.prs = h.prs ++
        ["https://" ++ h.region ++ ".console.aws.amazon.com/codesuite/codecommit/repositories/"
          ++ repo ++ "/pull-requests/" ++ id ++ "/details?region=" ++ h.region]) ∧
    ((scenarioHandle bobArn ["...CodeCommitApprovers:alice..."] false).checkPullRequest
        "repo1" "5").2 = .nil ∧
    ((scenarioHandle bobArn ["...CodeCommitApprovers:alice..."] false).checkPullRequest
        "repo1" "5").1.prs =
      ["https://us-east-2.console.aws.amazon.com/codesuite/codecommit/repositories/repo1/pull-requests/5/details?region=us-east-2"] ∧
    ((scenarioHandle bobArn ["CodeCommitApprovers:alice", "CodeCommitApprovers:alice,bob",
        "x CodeCommitApprovers:alice"] false).checkPullRequest "repo1" "5").2 = .nil ∧
    ((scenarioHandle bobArn ["CodeCommitApprovers:alice", "CodeCommitApprovers:alice,bob",
        "x CodeCommitApprovers:alice"] false).checkPullRequest "repo1" "5").1.prs =
      ["https://us-east-2.console.aws.amazon.com/codesuite/codecommit/repositories/repo1/pull-requests/5/details?region=us-east-2"] := by
  refine ⟨fun h repo id => ?_, by decide, by decide, by decide, by decide⟩
  rcases checkPullRequest_fst h repo id with hfst | hfst
  · exact Or.inl (by rw [hfst])
  · exact Or.inr (by rw [hfst]; rfl)

/-! ## The scan against its specification -/

/-- A rule scan that ends normally added the URL exactly when some rule's
content contains the marker. -/
theorem scanRules_nil (h : Handle) (repo id : String) (rules : List ApprovalRule)
    (hok : (h.scanRules repo id rules).2 = .nil) :
    (h.scanRules repo id rules).1 =
      if (rules.any fun rule =>
          match rule.ApprovalRuleContent with
          | none => false
          | some content => strings.Contains content ("CodeCommitApprovers:" ++ h.userName))
          = true
      then h.AddPR repo id else h := by
  induction rules with
  | nil => simp [Handle.scanRules]
  | cons rule rest ih =>
    unfold Handle.scanRules at hok ⊢
    cases hcontent : rule.ApprovalRuleContent with
    | none => simp [hcontent] at hok
    | some content =>
      simp only [hcontent] at hok ⊢
      by_cases hcon : strings.Contains content ("CodeCommitApprovers:" ++ h.userName) = true
      · simp [hcon, hcontent]
      · simp only [hcon, if_false, Bool.false_eq_true] at hok ⊢
        rw [ih hok]
        simp [hcon, hcontent]

/-- A `checkPullRequest` that ends normally adds to the result list what the
specification says the pull request contributes, and changes nothing else. -/
theorem checkPullRequest_nil (h : Handle) (repo id : String)
    (hok : (h.checkPullRequest repo id).2 = .nil) :
    (h.checkPullRequest repo id).1 =
      { h with prs := h.prs ++
          specPullRequestURLs h.client h.userName h.userArn h.region h.returnMine repo id } := by
  cases hget : h.client.GetPullRequest id with
  | error e => simp [Handle.checkPullRequest, hget] at hok
  | ok resp =>
    cases hpr : resp.PullRequest with
    | none => simp [Handle.checkPullRequest, hget, hpr] at hok
    | some pr =>
      have hlookup : h.client.GetPullRequest id = .ok ⟨some pr⟩ := by
        rw [hget, ← hpr]
      rw [checkPullRequest_of_lookup h repo id pr hlookup] at hok ⊢
      simp only [specPullRequestURLs, hlookup, specIncludes]
      by_cases hauthor : pr.AuthorArn = some h.userArn
      · obtain ⟨iam, client, userName, userId, userArn, region, returnMine, prs⟩ := h
        cases returnMine <;> simp_all [Handle.AddPR]
      · by_cases hmine : h.returnMine = true
        · obtain ⟨iam, client, userName, userId, userArn, region, returnMine, prs⟩ := h
          simp_all
        · simp only [hmine, hauthor, if_false] at hok
          rw [if_neg hmine, if_neg hauthor, scanRules_nil h repo id _ hok]
          have hret : h.returnMine = false := by simpa using hmine
          simp only [hret, hauthor, decide_False, Bool.not_false, Bool.true_and,
            Bool.false_eq_true, if_false]
          obtain ⟨iam, client, userName, userId, userArn, region, returnMine, prs⟩ := h
          simp only at hret
          subst hret
          split_ifs
          · rfl
          · simp

/-- The loop over the ids of a repository writes nothing to standard
output. -/
theorem checkIds_stdout (repo : String) (t : Terminal) (h : Handle) (ids : List String) :
    (Handle.checkIds repo t h ids).1.stdout = t.stdout := by
  induction ids generalizing t h with
  | nil => rfl
  | cons id rest ih =>
    rw [checkIds_cons]
    split_ifs
    · rw [ih, Debugln_stdout]
    · exact Debugln_stdout _ t

/-- A loop over the ids that ends normally accumulated, in listing order, what
the specification says each pull request contributes. -/
theorem checkIds_nil (repo : String) (t : Terminal) (h : Handle) (ids : List String)
    (hok : (Handle.checkIds repo t h ids).2.2 = .nil) :
    (Handle.checkIds repo t h ids).2.1 =
      { h with prs := h.prs ++
          (ids.map (specPullRequestURLs h.client h.userName h.userArn h.region h.returnMine
            repo)).flatten } := by
  induction ids generalizing t h with
  | nil => simp [Handle.checkIds]
  | cons id rest ih =>
    rw [checkIds_cons] at hok ⊢
    by_cases hid : (h.checkPullRequest repo id).2 = .nil
    · simp only [hid, if_true] at hok ⊢
      rw [ih _ _ hok, checkPullRequest_nil h repo id hid]
      simp [List.append_assoc]
    · simp only [hid, if_false] at hok

theorem checkRepository_stdout (t : Terminal) (h : Handle) (repo : String) :
    (h.checkRepository t repo).1.stdout = t.stdout := by
  unfold Handle.checkRepository
  cases hlist : h.client.ListPullRequests repo (if h.returnMine = true then some h.userArn else none)
    with
  | error e => simp [hlist]
  | ok resp =>
    simp only [hlist]
    exact checkIds_stdout repo t h _

/-- A `checkRepository` that ends normally accumulated what the specification
says the repository contributes. -/
theorem checkRepository_nil (t : Terminal) (h : Handle) (repo : String)
    (hok : (h.checkRepository t repo).2.2 = .nil) :
    (h.checkRepository t repo).2.1 =
      { h with prs := h.prs ++
          specRepositoryURLs h.client h.userName h.userArn h.region h.returnMine repo } := by
  unfold Handle.checkRepository at hok ⊢
  unfold specRepositoryURLs
  cases hlist : h.client.ListPullRequests repo (if h.returnMine = true then some h.userArn else none)
    with
  | error e => simp [hlist] at hok
  | ok resp =>
    simp only [hlist] at hok ⊢
    exact checkIds_nil repo t h _ hok

/-- One step of the loop over the repositories. -/
theorem scanRepositories_cons (c : Colors) (t : Terminal) (h : Handle)
    (repository : RepositoryNameIdPair) (rest : List RepositoryNameIdPair) (name : String)
    (hname : repository.RepositoryName = some name) :
    scanRepositories c t h (repository :: rest) =
      match (h.checkRepository
          (Infoln [.str (c.ctag "Scanning repo:"), .str " ", .str (c.ctext name)] t) name).2.2 with
      | .nil =>
        scanRepositories c
          (h.checkRepository
            (Infoln [.str (c.ctag "Scanning repo:"), .str " ", .str (c.ctext name)] t) name).1
          (h.checkRepository
            (Infoln [.str (c.ctag "Scanning repo:"), .str " ", .str (c.ctext name)] t) name).2.1
          rest
      | .err err =>
        (Fatalln [.val err]
          (h.checkRepository
            (Infoln [.str (c.ctag "Scanning repo:"), .str " ", .str (c.ctext name)] t) name).1,
          (h.checkRepository
            (Infoln [.str (c.ctag "Scanning repo:"), .str " ", .str (c.ctext name)] t) name).2.1,
          .exit 1)
      | .panic =>
        ((h.checkRepository
            (Infoln [.str (c.ctag "Scanning repo:"), .str " ", .str (c.ctext name)] t) name).1,
          (h.checkRepository
            (Infoln [.str (c.ctag "Scanning repo:"), .str " ", .str (c.ctext name)] t) name).2.1,
          .panic) := by
  rw [scanRepositories]
  simp only [hname]
  rcases h.checkRepository
    (Infoln [.str (c.ctag "Scanning repo:"), .str " ", .str (c.ctext name)] t) name
    with ⟨t', h', r⟩
  cases r <;> rfl

/-- The loop over the repositories writes nothing to standard output, however
it ends. -/
theorem scanRepositories_stdout (c : Colors) (t : Terminal) (h : Handle)
    (repos : List RepositoryNameIdPair) :
    (scanRepositories c t h repos).1.stdout = t.stdout := by
  induction repos generalizing t h with
  | nil => rfl
  | cons repository rest ih =>
    cases hname : repository.RepositoryName with
    | none => simp [scanRepositories, hname]
    | some name =>
      rw [scanRepositories_cons c t h repository rest name hname]
      split
      · rw [ih, checkRepository_stdout, Infoln_stdout]
      · rw [Fatalln_stdout, checkRepository_stdout, Infoln_stdout]
      · rw [checkRepository_stdout, Infoln_stdout]

/-- A loop over the repositories that runs to its end saw only named
repositories and accumulated, in listing order, what the specification says
each contributes. -/
theorem scanRepositories_returned (c : Colors) (t : Terminal) (h : Handle)
    (repos : List RepositoryNameIdPair)
    (hret : (scanRepositories c t h repos).2.2 = .returned) :
    ∃ names : List String, repos = names.map (fun name => ⟨some name⟩) ∧
      (scanRepositories c t h repos).2.1 =
        { h with prs := h.prs ++
            specScanURLs h.client h.userName h.userArn h.region h.returnMine names } := by
  induction repos generalizing t h with
  | nil => exact ⟨[], rfl, by simp [scanRepositories, specScanURLs]⟩
  | cons repository rest ih =>
    cases hname : repository.RepositoryName with
    | none => simp [scanRepositories, hname] at hret
    | some name =>
      rw [scanRepositories_cons c t h repository rest name hname] at hret ⊢
      cases hres : (h.checkRepository
          (Infoln [.str (c.ctag "Scanning repo:"), .str " ", .str (c.ctext name)] t) name).2.2
        with
      | err e => simp [hres] at hret
      | panic => simp [hres] at hret
      | nil =>
        simp only [hres] at hret ⊢
        obtain ⟨names, hnames, hprs⟩ := ih _ _ hret
        refine ⟨name :: names, ?_, ?_⟩
        · rw [hnames]
          cases repository
          simp_all
        · rw [hprs, checkRepository_nil _ h name hres]
          simp [specScanURLs, List.append_assoc]

/-- A `CacheUserName` that ends normally got a user record with all three
fields and stored them. -/
theorem CacheUserName_nil (h : Handle) (hok : h.CacheUserName.2 = .nil) :
    ∃ userName userId userArn,
      h.iam.GetUser = .ok ⟨some ⟨some userName, some userId, some userArn⟩⟩ ∧
      h.CacheUserName.1 = { h with userName := userName, userId := userId, userArn := userArn } := by
  unfold Handle.CacheUserName at hok ⊢
  cases hget : h.iam.GetUser with
  | error e => simp [hget] at hok
  | ok resp =>
    obtain ⟨user⟩ := resp
    cases user with
    | none => simp [hget] at hok
    | some user =>
      obtain ⟨userName, userId, userArn⟩ := user
      cases userName <;> cases userId <;> cases userArn <;> simp_all

/-- The renderer state in which `main` starts its work: the debug flag taken
from the command line, and single-line mode left at once under `--debug`. -/
theorem main_start_stdout (flags : Flags) (t : Terminal) :
    (if ({ t with DebugMode := flags.debug } : Terminal).DebugMode = true then
        DisableSingleLineMode 0 { t with DebugMode := flags.debug }
      else { t with DebugMode := flags.debug }).stdout = t.stdout := by
  split_ifs
  · rw [(DisableSingleLineMode_stdout _ _).1]
  · rfl

/-- The outcome of `main` by the outcomes of its stages. -/
theorem main_returned (c : Colors) (flags : Flags) (cfg : Except Error Config) (t : Terminal)
    (hret : (main c flags cfg t).2.2 = .returned) :
    (main c flags cfg t).1.stdout = t.stdout ++ urlLines (main c flags cfg t).2.1 ∧
    ∃ conf userName userId userArn names,
      cfg = .ok conf ∧
      conf.iam.GetUser = .ok ⟨some ⟨some userName, some userId, some userArn⟩⟩ ∧
      conf.client.ListRepositories = .ok ⟨names.map fun name => ⟨some name⟩⟩ ∧
      (main c flags cfg t).2.1 =
        specScanURLs conf.client userName userArn flags.region flags.mine names := by
  cases cfg with
  | error e => simp [main] at hret
  | ok conf =>
    unfold main at hret ⊢
    simp only at hret ⊢
    have hstart := main_start_stdout flags t
    simp only at hstart
    generalize (if flags.debug = true then
        DisableSingleLineMode 0 { t with DebugMode := flags.debug }
      else { t with DebugMode := flags.debug }) = t₀ at hret hstart ⊢
    have hcache := CacheUserName_nil
      { iam := conf.iam, client := conf.client, userName := "", userId := "", userArn := "",
        region := flags.region, returnMine := flags.mine, prs := [] }
    generalize Handle.CacheUserName
      { iam := conf.iam, client := conf.client, userName := "", userId := "", userArn := "",
        region := flags.region, returnMine := flags.mine, prs := [] } = cached at hret hcache ⊢
    obtain ⟨h₁, r⟩ := cached
    cases r with
    | err e => simp at hret
    | panic => simp at hret
    | nil =>
      obtain ⟨userName, userId, userArn, hget, hh₁⟩ := hcache rfl
      simp only at hh₁ hret ⊢
      cases hlist : h₁.client.ListRepositories with
      | error e => simp [hlist] at hret
      | ok repoResp =>
        simp only [hlist] at hret ⊢
        have hout := scanRepositories_stdout c t₀ h₁ repoResp.Repositories
        have hscan := scanRepositories_returned c t₀ h₁ repoResp.Repositories
        generalize scanRepositories c t₀ h₁ repoResp.Repositories = scanned at hret hout hscan ⊢
        obtain ⟨t₂, h₂, e⟩ := scanned
        cases e with
        | exit code => simp at hret
        | panic => simp at hret
        | returned =>
          obtain ⟨names, hnames, hh₂⟩ := hscan rfl
          simp only at hout hh₂ ⊢
          constructor
          · split_ifs
            · rw [(DisableSingleLineMode_stdout _ _).1, printURLs_stdout, hout, hstart]
            · rw [printURLs_stdout, hout, hstart]
          · refine ⟨conf, userName, userId, userArn, names, rfl, hget, ?_, ?_⟩
            · rw [hh₁] at hlist
              rw [← hnames]
              exact hlist
            · rw [hh₂, hh₁]
              simp

/-- A run of `main` that does not return normally leaves standard output
untouched. -/
theorem main_not_returned (c : Colors) (flags : Flags) (cfg : Except Error Config)
    (t : Terminal) (hret : (main c flags cfg t).2.2 ≠ .returned) :
    (main c flags cfg t).1.stdout = t.stdout := by
  have hstart := main_start_stdout flags t
  simp only at hstart
  cases cfg with
  | error e =>
    simp only [main]
    rw [Fatalln_stdout]
    exact hstart
  | ok conf =>
    unfold main at hret ⊢
    simp only at hret ⊢
    generalize (if flags.debug = true then
        DisableSingleLineMode 0 { t with DebugMode := flags.debug }
      else { t with DebugMode := flags.debug }) = t₀ at hret hstart ⊢
    generalize Handle.CacheUserName
      { iam := conf.iam, client := conf.client, userName := "", userId := "", userArn := "",
        region := flags.region, returnMine := flags.mine, prs := [] } = cached at hret ⊢
    obtain ⟨h₁, r⟩ := cached
    cases r with
    | err e => simp [Fatalln_stdout, hstart]
    | panic => simp [hstart]
    | nil =>
      simp only at hret ⊢
      cases hlist : h₁.client.ListRepositories with
      | error e => simp [Fatalln_stdout, hstart]
      | ok repoResp =>
        simp only [hlist] at hret ⊢
        have hout := scanRepositories_stdout c t₀ h₁ repoResp.Repositories
        generalize scanRepositories c t₀ h₁ repoResp.Repositories = scanned at hret hout ⊢
        obtain ⟨t₂, h₂, e⟩ := scanned
        cases e with
        | exit code => simp only at hout ⊢; rw [hout, hstart]
        | panic => simp only at hout ⊢; rw [hout, hstart]
        | returned => simp at hret

/-- C5: on a run of `main` that returns normally, from any renderer state,
standard output has grown by exactly the accumulated URLs, each followed by
one newline, in order, and the accumulated URLs are those of the repositories
in listing order and of the pull requests in listing order inside each; a run
that ends otherwise writes nothing to standard output; and of the renderer
entry points only `Println` writes to standard output, the message and a
newline with no prefix and no erase sequence, for every state. -/
theorem stdout_is_exactly_the_urls (c : Colors) (flags : Flags) (cfg : Except Error Config)
    (t : Terminal) (hret : (main c flags cfg t).2.2 = .returned) :
    ((main c flags cfg t).1.stdout = t.stdout ++ urlLines (main c flags cfg t).2.1 ∧
      ∃ conf userName userId userArn names,
        cfg = .ok conf ∧
        conf.iam.GetUser = .ok ⟨some ⟨some userName, some userId, some userArn⟩⟩ ∧
        conf.client.ListRepositories = .ok ⟨names.map fun name => ⟨some name⟩⟩ ∧
        (main c flags cfg t).2.1 =
          specScanURLs conf.client userName userArn flags.region flags.mine names) ∧
    (∀ (cfg₁ : Except Error Config) (t₁ : Terminal),
      (main c flags cfg₁ t₁).2.2 ≠ .returned → (main c flags cfg₁ t₁).1.stdout = t₁.stdout) ∧
    (∀ (a : List Operand) (b : OnDisableBehavior) (t₁ : Terminal),
      (Println a t₁).stdout = t₁.stdout ++ Sprint a ++ "\n" ∧
      (Infoln a t₁).stdout = t₁.stdout ∧
      (Debugln a t₁).stdout = t₁.stdout ∧
      (Fatalln a t₁).stdout = t₁.stdout ∧
      (DisableSingleLineMode b t₁).stdout = t₁.stdout) :=
  ⟨main_returned c flags cfg t hret, fun cfg₁ t₁ => main_not_returned c flags cfg₁ t₁,
    fun a b t₁ => ⟨Println_stdout a t₁, Infoln_stdout a t₁, Debugln_stdout a t₁,
      Fatalln_stdout a t₁, (DisableSingleLineMode_stdout b t₁).1⟩⟩

theorem stdout_is_exactly_the_urls_witness :
    (main ansiColors ⟨false, "us-east-2", false⟩
        (.ok (scenarioConfig bobArn ["...CodeCommitApprovers:alice..."])) startTerminal).2.2
      = .returned ∧
    (main ansiColors ⟨false, "us-east-2", false⟩
        (.ok (scenarioConfig bobArn ["...CodeCommitApprovers:alice..."])) startTerminal).1.stdout
      = "https://us-east-2.console.aws.amazon.com/codesuite/codecommit/repositories/repo1/pull-requests/5/details?region=us-east-2\n" ∧
    (main ansiColors ⟨false, "us-east-2", false⟩
        (.ok (scenarioConfig bobArn ["...CodeCommitApprovers:alice..."])) startTerminal).1.stdout
      = startTerminal.stdout ++ urlLines (main ansiColors ⟨false, "us-east-2", false⟩
        (.ok (scenarioConfig bobArn ["...CodeCommitApprovers:alice..."])) startTerminal).2.1 :=
  ⟨by decide, by decide,
    (stdout_is_exactly_the_urls ansiColors ⟨false, "us-east-2", false⟩
      (.ok (scenarioConfig bobArn ["...CodeCommitApprovers:alice..."])) startTerminal
      (by decide)).1.1⟩

/-! ## Properties of `checkRepository` -/

/-- A lookup that returned a pull request whose rules all carry content makes
`checkPullRequest` end normally. -/
theorem checkPullRequest_snd_of_complete (h : Handle) (repo id : String) (pr : PullRequest)
    (hget : h.client.GetPullRequest id = .ok ⟨some pr⟩)
    (hc : ∀ r ∈ pr.ApprovalRules, r.ApprovalRuleContent ≠ none) :
    (h.checkPullRequest repo id).2 = .nil := by
  rw [checkPullRequest_of_lookup h repo id pr hget]
  split_ifs
  · rfl
  · rfl
  · rfl
  · exact scanRules_snd_of_content h repo id _ hc

/-- The loop over ids whose lookups all return complete pull requests runs to
its end. -/
theorem checkIds_snd_of_complete (repo : String) (t : Terminal) (h : Handle)
    (ids : List String)
    (hall : ∀ x ∈ ids, ∃ pr, h.client.GetPullRequest x = .ok ⟨some pr⟩ ∧
      ∀ r ∈ pr.ApprovalRules, r.ApprovalRuleContent ≠ none) :
    (Handle.checkIds repo t h ids).2.2 = .nil := by
  induction ids generalizing t h with
  | nil => rfl
  | cons id rest ih =>
    obtain ⟨pr, hget, hc⟩ := hall id (List.mem_cons_self _ _)
    rw [checkIds_cons, if_pos (checkPullRequest_snd_of_complete h repo id pr hget hc)]
    refine ih _ _ fun x hx => ?_
    rw [checkPullRequest_client]
    exact hall x (List.mem_cons_of_mem _ hx)

/-- The renderer state after a loop over the ids that ran to its end: one
`Debugln` per id, in order. -/
theorem checkIds_fst (repo : String) (t : Terminal) (h : Handle) (ids : List String)
    (hok : (Handle.checkIds repo t h ids).2.2 = .nil) :
    (Handle.checkIds repo t h ids).1 =
      runOps (ids.map fun x => Op.Debugln [.str "Found PR: ", .str x]) t := by
  induction ids generalizing t h with
  | nil => rfl
  | cons id rest ih =>
    rw [checkIds_cons] at hok ⊢
    by_cases hid : (h.checkPullRequest repo id).2 = .nil
    · simp only [hid, if_true] at hok ⊢
      rw [ih _ _ hok]
      rfl
    · simp only [hid, if_false] at hok

/-- A run of `Debugln` calls followed by one more. -/
theorem runOps_debug_append (ids : List String) (id : String) (t : Terminal) :
    runOps ((ids ++ [id]).map fun x => Op.Debugln [.str "Found PR: ", .str x]) t =
      Debugln [.str "Found PR: ", .str id]
        (runOps (ids.map fun x => Op.Debugln [.str "Found PR: ", .str x]) t) := by
  induction ids generalizing t with
  | nil => rfl
  | cons x rest ih => exact ih _

/-- C6: when the listing returns the ids `pre ++ id :: post`, every lookup
before `id` returns a pull request record with the content of its rules, and
the lookup of `id` fails with `e`, `checkRepository` returns `e`; the result
list holds what the ids of `pre` contribute and the renderer has seen the
debug lines of `pre` and of `id` only, whatever `post` is: nothing after the
failing id is evaluated or accumulated.  `checkPullRequest` on the failing id
returns `e` with the handle, and so the result list, unchanged.  And
`checkRepository` returns `nil` only if the listing and every detail lookup
succeeded. -/
theorem checkRepository_stops_at_first_failure (t : Terminal) (h : Handle) (repo : String)
    (pre : List String) (id : String) (post : List String) (e : Error)
    (hlist : h.client.ListPullRequests repo (if h.returnMine then some h.userArn else none)
      = .ok ⟨pre ++ id :: post⟩)
    (hpre : ∀ x ∈ pre, ∃ pr, h.client.GetPullRequest x = .ok ⟨some pr⟩ ∧
      ∀ r ∈ pr.ApprovalRules, r.ApprovalRuleContent ≠ none)
    (hget : h.client.GetPullRequest id = .error e) :
    h.checkRepository t repo =
      (runOps ((pre ++ [id]).map fun x => Op.Debugln [.str "Found PR: ", .str x]) t,
        { h with prs := h.prs ++
            (pre.map (specPullRequestURLs h.client h.userName h.userArn h.region h.returnMine
              repo)).flatten },
        .err e) ∧
    h.checkPullRequest repo id = (h, .err e) ∧
    (h.checkPullRequest repo id).1.prs = h.prs ∧
    (∀ (t₁ : Terminal) (h₁ : Handle) (repo₁ : String),
      (h₁.checkRepository t₁ repo₁).2.2 = .nil →
      ∃ resp, h₁.client.ListPullRequests repo₁
          (if h₁.returnMine then some h₁.userArn else none) = .ok resp ∧
        ∀ x ∈ resp.PullRequestIds, ∃ out, h₁.client.GetPullRequest x = .ok out) := by
  have hloop := checkIds_snd_of_complete repo t h pre hpre
  refine ⟨?_, checkPullRequest_of_error h repo id e hget, ?_, fun t₁ h₁ repo₁ hok => ?_⟩
  · have hget' : (Handle.checkIds repo t h pre).2.1.client.GetPullRequest id = .error e := by
      rw [checkIds_client]
      exact hget
    unfold Handle.checkRepository
    simp only [hlist]
    rw [checkIds_append repo t h pre _ hloop, checkIds_cons,
      checkPullRequest_of_error _ repo id e hget', runOps_debug_append,
      ← checkIds_fst repo t h pre hloop, ← checkIds_nil repo t h pre hloop]
    simp
  · rw [checkPullRequest_of_error h repo id e hget]
  · unfold Handle.checkRepository at hok
    cases hl : h₁.client.ListPullRequests repo₁
      (if h₁.returnMine then some h₁.userArn else none) with
    | error e₁ => simp [hl] at hok
    | ok resp =>
      simp only [hl] at hok
      exact ⟨resp, rfl, lookups_of_checkIds_nil repo₁ t₁ h₁ _ hok⟩

theorem checkRepository_stops_at_first_failure_witness :
    Handle.checkRepository ⟨true, false, true, true, "", ""⟩
        { scenarioHandle bobArn [] false with client := failingClient } "repo1" =
      (⟨true, false, true, true, "", "[DEBUG]: Found PR: 5\n[DEBUG]: Found PR: 6\n"⟩,
        { scenarioHandle bobArn [] false with
          client := failingClient
          prs := ["https://us-east-2.console.aws.amazon.com/codesuite/codecommit/repositories/repo1/pull-requests/5/details?region=us-east-2"] },
        .err "ThrottlingException") :=
  (checkRepository_stops_at_first_failure ⟨true, false, true, true, "", ""⟩
    { scenarioHandle bobArn [] false with client := failingClient } "repo1"
    ["5"] "6" ["7"] "ThrottlingException" rfl
    (fun x hx => by
      rw [List.mem_singleton] at hx
      subst hx
      exact ⟨⟨some "arn:aws:iam::1:user/bob", [⟨some "CodeCommitApprovers:alice"⟩]⟩, rfl,
        by decide⟩)
    rfl).1

end CodecommitScan
